import Mathlib

/-!
Verification of the ZERO Execution Engine chat client (`index.tsx`).

This file gives a shallow embedding of the response-parsing layer, the
per-turn protocol state machine, the session store operations, the startup
loading logic and the self-awareness redaction/encoding pipeline of the
application, and proves (or refutes) the specification claims about them.

Strings are handled through their underlying character lists (`String.data`),
which matches JavaScript string semantics character-by-character for the
inputs relevant here.
-/

set_option maxHeartbeats 1000000

/-- The JavaScript whitespace class `\s` (the ASCII part, which also drives
`String.prototype.trim`): space, tab, newline, carriage return, vertical tab,
form feed.  The exotic Unicode space characters in `\s` are irrelevant for
this development and omitted. -/
def jsWhitespaceChar (c : Char) : Bool :=
  c = ' ' || c = '\t' || c = '\n' || c = '\r' || c = '\x0b' || c = '\x0c'

/-- JavaScript `String.prototype.trim`: drop leading and trailing whitespace. -/
def jsTrim (l : List Char) : List Char :=
  ((l.dropWhile jsWhitespaceChar).reverse.dropWhile jsWhitespaceChar).reverse

/-- Does `pat` occur as a contiguous run inside `l`?  (Executable model of a
substring test on character lists.) -/
def listContains (pat : List Char) : List Char → Bool
  | [] => pat.isEmpty
  | c :: rest => pat.isPrefixOf (c :: rest) || listContains pat rest

/-- JavaScript `a.includes(b)` on strings: `b` occurs as a contiguous
substring of `a`. -/
def jsIncludes (s pat : String) : Bool :=
  listContains pat.data s.data

/-- A parsed section: `{title: string, content: string}` (`index.tsx`, type
`Section`). -/
structure Section where
  title : String
  content : String
deriving DecidableEq

/-- Chain-mode decomposition (`index.tsx`, type `ChainData`). -/
structure ChainData where
  task : Option Section
  constraints : Option Section
  refinedAnswers : List Section
deriving DecidableEq

/-- The `data` field of a `ParsedResponse`: either a flat section list or a
chain-mode decomposition (`ChainData | Section[]` in `index.tsx`). -/
inductive ParsedData where
  | flat (sections : List Section)
  | chain (d : ChainData)
deriving DecidableEq

/-- `index.tsx` type `ParsedResponse`. -/
structure ParsedResponse where
  isChainMode : Bool
  data : ParsedData
deriving DecidableEq

/-- Scanner for the initial `text.match(/\[.*?\]/)` test in `parseResponse`
(`index.tsx` line 135), continued: given the characters following a `[`,
is there a `]` before any line terminator?  (`.` in a JavaScript regex
matches anything except a line terminator.) -/
def bracketCloses : List Char → Bool
  | [] => false
  | c :: rest =>
    if c = ']' then true
    else if c = '\n' || c = '\r' then false
    else bracketCloses rest

/-- The test `text.match(/\[.*?\]/)` of `parseResponse` (`index.tsx` line
135): the text contains a `[` followed, with no intervening line terminator,
by a `]`. -/
def hasBracketTag : List Char → Bool
  | [] => false
  | c :: rest => (c = '[' && bracketCloses rest) || hasBracketTag rest

/-- Helper for the section-scanning regex
`/\[([^\]]+)\]\s*([\s\S]*?)(?=\n\n\[|$)/g` (`index.tsx` line 132): split the
text at the first position where the lookahead `\n\n[` succeeds (or at the
end of the text).  The first component is the lazily-matched content, the
second the unconsumed remainder.  Note that because `$` always succeeds at
the end of input, the lazy quantifier never forces the preceding greedy
`\s*` to backtrack. -/
def contentSplit : List Char → List Char × List Char
  | [] => ([], [])
  | c :: rest =>
    if "\n\n[".data.isPrefixOf (c :: rest) then ([], c :: rest)
    else
      let p := contentSplit rest
      (c :: p.1, p.2)

/-- One attempted match of `/\[([^\]]+)\]\s*([\s\S]*?)(?=\n\n\[|$)/` at the
start of the given text: `[`, a nonempty run of non-`]` characters (the
title, which may span lines), `]`, greedy whitespace, then lazy content up
to the first `\n\n[` or the end of input.  Returns the section (title and
content trimmed, as in `index.tsx` line 140) and the unconsumed remainder
(the regex `lastIndex` position). -/
def matchAt : List Char → Option (Section × List Char)
  | '[' :: rest =>
    let p := rest.span (fun c => c != ']')
    match p.2 with
    | ']' :: afterTitle =>
      if p.1.isEmpty then none
      else
        let body := afterTitle.dropWhile jsWhitespaceChar
        let q := contentSplit body
        some (⟨String.mk (jsTrim p.1), String.mk (jsTrim q.1)⟩, q.2)
    | _ => none
  | _ => none

/-- The `while ((match = regex.exec(text)) !== null)` loop of `parseResponse`
(`index.tsx` lines 139-141): repeatedly find the leftmost match of the
section regex at or after the current position and collect the sections.
A fuel argument bounds the recursion; `extractSections` supplies enough fuel
for the whole text (every loop iteration either consumes a match of at least
three characters or advances one character). -/
def extractLoop : Nat → List Char → List Section
  | 0, _ => []
  | _, [] => []
  | fuel + 1, c :: rest =>
    match matchAt (c :: rest) with
    | some (sec, remaining) => sec :: extractLoop fuel remaining
    | none => extractLoop fuel rest

/-- All sections produced by the scanning loop of `parseResponse` on the
full text. -/
def extractSections (text : String) : List Section :=
  extractLoop (text.data.length + 1) text.data

/-- The literal title marker `"Refined Answer"` used by the chain-mode
detection `section.title.startsWith('Refined Answer')` (`index.tsx`
line 147). -/
def raTag : List Char := "Refined Answer".data

/-- `section.title.startsWith('Refined Answer')` (`index.tsx` lines 147,
166). -/
def titleStartsWithRA (s : Section) : Bool :=
  raTag.isPrefixOf s.title.data

/-- One step of the `sections.forEach` chain-mode decomposition loop
(`index.tsx` lines 157-169): a section titled exactly `"Task"` becomes the
task; a section titled `"Constraints"` or `"STANDING CONSTRAINTS"` either
seeds the merged constraints section (titled `"Constraints"`) or is appended
to its content after a blank line and a bolded sub-heading of its own title;
a section whose title starts with `"Refined Answer"` is appended to the
refined answers; anything else is ignored. -/
def chainStep (acc : ChainData) (s : Section) : ChainData :=
  if s.title = "Task" then { acc with task := some s }
  else if s.title = "Constraints" ∨ s.title = "STANDING CONSTRAINTS" then
    match acc.constraints with
    | some c =>
      let merged : Section :=
        ⟨c.title, c.content ++ "\n\n" ++ "**" ++ s.title ++ "**\n" ++ s.content⟩
      { acc with constraints := some merged }
    | none => { acc with constraints := some ⟨"Constraints", s.content⟩ }
  else if titleStartsWithRA s then
    { acc with refinedAnswers := acc.refinedAnswers ++ [s] }
  else acc

/-- The chain-mode decomposition of `parseResponse` (`index.tsx` lines
153-169): fold `chainStep` over the sections starting from the empty
`ChainData`. -/
def decomposeChain (sections : List Section) : ChainData :=
  sections.foldl chainStep ⟨none, none, []⟩

/-- `parseResponse` (`index.tsx` lines 130-172).  Faithful translation:
if the text has no bracket tag but a nonempty trim, wrap it in a single
synthetic `"Response"` section; otherwise scan all sections; if none were
found but the trim is nonempty, use the same wrapping; otherwise detect
chain mode by a `"Refined Answer"` title prefix and either decompose or
return the flat list. -/
def parseResponse (text : String) : ParsedResponse :=
  if !hasBracketTag text.data && !(jsTrim text.data).isEmpty then
    ⟨false, .flat [⟨"Response", text⟩]⟩
  else if (extractSections text).isEmpty && !(jsTrim text.data).isEmpty then
    ⟨false, .flat [⟨"Response", text⟩]⟩
  else if (extractSections text).any titleStartsWithRA then
    ⟨true, .chain (decomposeChain (extractSections text))⟩
  else
    ⟨false, .flat (extractSections text)⟩

/-- Total number of sections held by a `ParsedResponse`: the length of the
flat list, or the number of populated fields of the chain decomposition. -/
def sectionCount : ParsedResponse → Nat
  | ⟨_, .flat l⟩ => l.length
  | ⟨_, .chain d⟩ =>
    (if d.task.isSome then 1 else 0) + (if d.constraints.isSome then 1 else 0) +
      d.refinedAnswers.length

/-- Message author (`'user' | 'ai'` in `index.tsx`). -/
inductive Author where
  | user
  | ai
deriving DecidableEq

/-- `index.tsx` type `Citation`. -/
structure Citation where
  uri : String
  title : String
deriving DecidableEq

/-- The `translation` field of a `Message`. -/
structure Translation where
  lang : String
  content : String
deriving DecidableEq

/-- The `attachment` field of a `Message` (file metadata and preview). -/
structure Attachment where
  name : String
  preview : String
  type : String
  size : Nat
deriving DecidableEq

/-- `index.tsx` type `Message`.  Optional TypeScript fields become `Option`s. -/
structure Message where
  id : Nat
  author : Author
  content : String
  citations : Option (List Citation) := none
  translation : Option Translation := none
  isTranslating : Option Bool := none
  attachment : Option Attachment := none
  parsedData : Option ParsedResponse := none
deriving DecidableEq

/-- One content part of a model-exchange history entry (`parts` in
`index.tsx`): plain text or inline binary data with a MIME type. -/
inductive MsgPart where
  | text (text : String)
  | inlineData (mimeType : String) (data : String)
deriving DecidableEq

/-- One entry of a session's `chatHistory` (`{ role: string, parts: any[] }`
in `index.tsx`). -/
structure HistoryItem where
  role : String
  parts : List MsgPart
deriving DecidableEq

/-- `index.tsx` type `Session`. -/
structure Session where
  id : String
  name : String
  messages : List Message
  chatHistory : List HistoryItem
  createdAt : Nat
deriving DecidableEq

/-- `index.tsx` type `Stage`. -/
inductive Stage where
  | initializing
  | awaiting_task
  | processing
  | awaiting_critique
  | error
deriving DecidableEq

/-- `handleDeleteSession` (`index.tsx` lines 1071-1086) restricted to its
observable effect on the session list and the active-session id: remove every
session with the given id; if nothing remains, clear persisted state and
reload the page (modelled as `none`); otherwise, if the deleted id was the
active one, make `remaining[0]` active, else keep the active id.  Returns
`some (remaining sessions, new active id)`. -/
def handleDeleteSession (sessions : List Session) (activeSessionId sessionId : String) :
    Option (List Session × String) :=
  let remaining := sessions.filter (fun s => s.id != sessionId)
  match remaining with
  | [] => none
  | r :: rest =>
    if sessionId = activeSessionId then some (r :: rest, r.id)
    else some (r :: rest, activeSessionId)

/-- The synthetic error session built by the `catch` block of `initApp`
(`index.tsx` lines 785-791). -/
def errorSession (now : Nat) : Session :=
  { id := "error_session"
    name := "Error"
    messages := [{ id := 1, author := .ai,
                   content := "Error: Could not initialize the ZERO Engine. Please check your API key and refresh the page." }]
    chatHistory := []
    createdAt := now }

/-- Observable outcome of `initApp`: the session list, the active session id
and the protocol stage after startup. -/
structure InitState where
  sessions : List Session
  activeSessionId : String
  stage : Stage
deriving DecidableEq

/-- The persisted-state branch of `initApp` (`index.tsx` lines 772-797),
assuming the preceding source-fetch and model-client construction succeeded.
`savedSessions` / `savedActiveId` are the two `localStorage` reads (`none`
models the `null` of a missing key); `parseSessions` models `JSON.parse`,
with `none` standing for a parse exception on a corrupt record.  The guard
`if (savedSessions && savedActiveId)` uses JavaScript truthiness: it takes
the load path only when both values are non-null, non-empty strings — an
empty string is falsy and routes to the fresh-session branch exactly like a
missing key.  On the load path the record is parsed and loaded verbatim,
and a `JSON.parse` exception propagates to the enclosing `catch`, which
installs the synthetic error session and the terminal `error` stage.
Otherwise one fresh session (`createNewSession`) is created and activated.
Both non-throwing paths end in `awaiting_task`. -/
def initApp (savedSessions savedActiveId : Option String)
    (parseSessions : String → Option (List Session))
    (freshSession : Session) (now : Nat) : InitState :=
  match savedSessions, savedActiveId with
  | some raw, some activeId =>
    if raw != "" && activeId != "" then
      match parseSessions raw with
      | some loaded => ⟨loaded, activeId, .awaiting_task⟩
      | none => ⟨[errorSession now], "error_session", .error⟩
    else ⟨[freshSession], freshSession.id, .awaiting_task⟩
  | _, _ => ⟨[freshSession], freshSession.id, .awaiting_task⟩

/-- One chunk of the response stream (`for await (const chunk of result)` in
`index.tsx` line 943): its text delta and, when present, the web-grounding
citations carried by the chunk (already mapped/filtered to `Citation`s as in
line 947). -/
structure Chunk where
  text : String
  grounding : Option (List Citation)
deriving DecidableEq

/-- Inputs of one `handleSendMessage` turn that are fixed before the stream
starts: the raw user message text, the ids `Date.now()` / `Date.now() + 1`
given to the two new messages, the optional attachment metadata, the content
parts recorded for the model-exchange history (`userPartsForHistory`), and
the two booleans `isMetaQuestion` and `isChainMode`. -/
structure TurnInput where
  userMessageContent : String
  userMsgId : Nat
  aiMsgId : Nat
  attachment : Option Attachment
  userParts : List MsgPart
  isMetaQuestion : Bool
  isChainMode : Bool
deriving DecidableEq

/-- The user message appended at `index.tsx` lines 898-910. -/
def mkUserMessage (inp : TurnInput) : Message :=
  { id := inp.userMsgId, author := .user, content := inp.userMessageContent,
    attachment := inp.attachment }

/-- The in-flight AI message placeholder appended at `index.tsx` line 911. -/
def mkAiPlaceholder (inp : TurnInput) : Message :=
  { id := inp.aiMsgId, author := .ai, content := "", citations := some [] }

/-- Update the last element of a message list with `f`, but only when its
author is `'ai'` — the guarded in-place mutation of `lastMessage` used by the
stream loop (`index.tsx` lines 955-960) and the catch block (lines 991-994).
An empty list is left unchanged. -/
def setLastIfAi (f : Message → Message) : List Message → List Message
  | [] => []
  | [m] => [if m.author = .ai then f m else m]
  | m :: m' :: rest => m :: setLastIfAi f (m' :: rest)

/-- The per-chunk store update of the stream loop (`index.tsx` lines
950-962): overwrite the in-flight AI message's content with the accumulated
response text, its citations with the current citation list, and its cached
`parsedData` with a re-parse of the accumulated text. -/
def applyChunk (s : Session) (fullText : String) (cits : List Citation) : Session :=
  let upd : Message → Message := fun m =>
    { m with content := fullText, citations := some cits,
             parsedData := some (parseResponse fullText) }
  { s with messages := setLastIfAi upd s.messages }

/-- The stream loop (`index.tsx` lines 943-963): fold over the chunks,
accumulating the full response text (`fullResponseText += chunk.text`),
updating the citation list when a chunk carries grounding metadata, and
applying the per-chunk store update.  Returns the session after the
processed chunks together with the accumulated text and citations. -/
def streamRun (s : Session) (acc : String) (cits : List Citation) :
    List Chunk → Session × String × List Citation
  | [] => (s, acc, cits)
  | c :: rest =>
    let acc' := acc ++ c.text
    let cits' := match c.grounding with
      | some l => l
      | none => cits
    streamRun (applyChunk s acc' cits') acc' cits' rest

/-- The post-stream store update (`index.tsx` lines 965-977): rename the
session to the first 50 characters of the user message if this was the first
user message and the name is still the default, and append the completed
user/model exchange pair to `chatHistory`. -/
def finishTurn (s : Session) (userMessageContent : String) (userParts : List MsgPart)
    (fullText : String) : Session :=
  let shouldRename :=
    (s.messages.filter (fun m => m.author = .user)).length = 1 ∧ s.name = "New Session"
  let newName := if shouldRename then String.mk (userMessageContent.data.take 50) else s.name
  { s with name := newName,
           chatHistory := s.chatHistory ++
             [⟨"user", userParts⟩, ⟨"model", [.text fullText]⟩] }

/-- The generic error text written into the in-flight AI message by the
catch block of `handleSendMessage` (`index.tsx` line 993). -/
def turnErrorText : String :=
  "[Error]\nAn unexpected error occurred while processing your request. Please try again. If the issue continues, please simplify your prompt or check the developer console for technical details."

/-- The catch block of `handleSendMessage` (`index.tsx` lines 986-997)
restricted to its session update: overwrite the in-flight AI message's
content with the generic error text. -/
def failTurn (s : Session) : Session :=
  { s with messages := setLastIfAi (fun m => { m with content := turnErrorText }) s.messages }

/-- The stage chosen after a turn's stream completes without an exception
(`index.tsx` lines 979-985). -/
def nextStageOnSuccess (isMetaQuestion isChainMode : Bool) (fullResponseText : String) :
    Stage :=
  if isMetaQuestion then .awaiting_task
  else if !isChainMode && jsIncludes fullResponseText "[Draft]" &&
      !jsIncludes fullResponseText "[Final Output]" then .awaiting_critique
  else .awaiting_task

/-- How a turn's model call ends: the stream completes after delivering its
chunks, or the call rejects / the stream throws after delivering a prefix of
them. -/
inductive TurnOutcome where
  | success (chunks : List Chunk)
  | failure (chunksBeforeThrow : List Chunk)
deriving DecidableEq

/-- The accumulated response text of a chunk list, as built by
`fullResponseText += chunk.text` starting from `''`. -/
def concatTexts (chunks : List Chunk) : String :=
  chunks.foldl (fun a c => a ++ c.text) ""

/-- One complete `handleSendMessage` turn (`index.tsx` lines 848-1001) as
seen by the active session and the protocol stage, from the point where the
stage was set to `processing` and the user message and AI placeholder were
appended (line 913).  On success the stream loop runs over all chunks, the
post-stream update appends the exchange to `chatHistory`, and the next stage
is computed from the full text (lines 979-985).  On failure (the service
call rejects or the stream throws after a prefix of the chunks) the catch
block overwrites the in-flight AI message with the generic error text and
the stage returns to `awaiting_task`; nothing is appended to `chatHistory`
and no retry is issued. -/
def runTurn (s : Session) (inp : TurnInput) (outcome : TurnOutcome) : Session × Stage :=
  let s1 := { s with messages := s.messages ++ [mkUserMessage inp, mkAiPlaceholder inp] }
  match outcome with
  | .success chunks =>
    let r := streamRun s1 "" [] chunks
    let s3 := finishTurn r.1 inp.userMessageContent inp.userParts r.2.1
    (s3, nextStageOnSuccess inp.isMetaQuestion inp.isChainMode r.2.1)
  | .failure pre =>
    let r := streamRun s1 "" [] pre
    (failTurn r.1, .awaiting_task)

/-- The last message of a list (`messages[messages.length - 1]`). -/
def lastOf : List Message → Option Message
  | [] => none
  | [m] => some m
  | _ :: m' :: rest => lastOf (m' :: rest)

/-- First index at which `pat` occurs in `l` (leftmost match position of a
literal pattern), if any. -/
def findPat (pat : List Char) : List Char → Option Nat
  | [] => if pat.isPrefixOf ([] : List Char) then some 0 else none
  | c :: rest =>
    if pat.isPrefixOf (c :: rest) then some 0
    else (findPat pat rest).map (· + 1)

/-- The fixed opening of the master-prompt declaration matched by the
redaction regex `/const MASTER_PROMPT = `[\s\S]*?`;/` (`index.tsx` line
876): everything up to and including the opening backtick. -/
def mpOpen : List Char := "const MASTER_PROMPT = `".data

/-- The terminator of the redaction regex: the lazy `[\s\S]*?` stops at the
first backtick-semicolon pair. -/
def mpClose : List Char := "`;".data

/-- The literal replacement written over the matched declaration
(`index.tsx` line 877). -/
def redactedDecl : String := "const MASTER_PROMPT = \"[REDACTED FOR SELF-ANALYSIS]\";"

/-- `redactedSourceCode['index.tsx'].replace(/const MASTER_PROMPT = `[\s\S]*?`;/, ...)`
(`index.tsx` lines 875-878): find the leftmost occurrence of the opening
`const MASTER_PROMPT = ` followed by a backtick, lazily extend to the first
following backtick-semicolon, and replace that whole region by the fixed
redacted declaration.  If the pattern does not match, the text is returned
unchanged (as `String.prototype.replace` does). -/
def redactMasterPrompt (t : List Char) : List Char :=
  match findPat mpOpen t with
  | none => t
  | some i =>
    let tail := t.drop (i + mpOpen.length)
    match findPat mpClose tail with
    | none => t
    | some j => t.take i ++ redactedDecl.data ++ tail.drop (j + mpClose.length)

/-- The base64 alphabet used by `btoa`. -/
def b64Table : String :=
  "ABCDEFGHIJKLMNOPQRSTUVWXYZabcdefghijklmnopqrstuvwxyz0123456789+/"

/-- Character of the base64 alphabet at a 6-bit index. -/
def b64chr (n : Nat) : Char := b64Table.data.getD n '='

/-- Index of a character in the base64 alphabet (inverse of `b64chr` on
valid indices), as used by `atob`. -/
def b64val (c : Char) : Nat := b64Table.data.findIdx (fun d => d == c)

/-- `btoa` on a byte sequence: standard base64 with `=` padding, three input
bytes per four output characters. -/
def b64encode : List Nat → List Char
  | [] => []
  | [b1] => [b64chr (b1 / 4), b64chr (b1 % 4 * 16), '=', '=']
  | [b1, b2] => [b64chr (b1 / 4), b64chr (b1 % 4 * 16 + b2 / 16), b64chr (b2 % 16 * 4), '=']
  | b1 :: b2 :: b3 :: rest =>
    b64chr (b1 / 4) :: b64chr (b1 % 4 * 16 + b2 / 16) ::
      b64chr (b2 % 16 * 4 + b3 / 64) :: b64chr (b3 % 64) :: b64encode rest

/-- `atob` on well-formed base64 text: four characters per three output
bytes, with `=` padding cutting the final group short. -/
def b64decode : List Char → List Nat
  | c1 :: c2 :: c3 :: c4 :: rest =>
    if c3 = '=' then [b64val c1 * 4 + b64val c2 / 16]
    else if c4 = '=' then
      [b64val c1 * 4 + b64val c2 / 16, b64val c2 % 16 * 16 + b64val c3 / 4]
    else
      (b64val c1 * 4 + b64val c2 / 16) :: (b64val c2 % 16 * 16 + b64val c3 / 4) ::
        (b64val c3 % 4 * 64 + b64val c4) :: b64decode rest
  | _ => []

/-- UTF-8 encoding of one code point (1 to 4 bytes). -/
def utf8EncodeChar (n : Nat) : List Nat :=
  if n < 128 then [n]
  else if n < 2048 then [192 + n / 64, 128 + n % 64]
  else if n < 65536 then [224 + n / 4096, 128 + n / 64 % 64, 128 + n % 64]
  else [240 + n / 262144, 128 + n / 4096 % 64, 128 + n / 64 % 64, 128 + n % 64]

/-- UTF-8 encoding of a character sequence.  This models the composite
`unescape(encodeURIComponent(content))` (`index.tsx` line 884): that idiom
turns a JavaScript string into the sequence of its UTF-8 bytes, each held as
one byte-valued character, which `btoa` then encodes. -/
def utf8Encode : List Char → List Nat
  | [] => []
  | c :: cs => utf8EncodeChar c.toNat ++ utf8Encode cs

/-- UTF-8 decoding, for well-formed input as produced by `utf8Encode`: a
lead byte determines how many continuation bytes are consumed (missing
continuation bytes of a truncated final sequence read as zero). -/
def utf8Decode (l : List Nat) : List Char :=
  match l with
  | [] => []
  | b :: bs =>
    if b < 128 then Char.ofNat b :: utf8Decode bs
    else if b < 224 then
      Char.ofNat ((b - 192) * 64 + (bs.headD 0 - 128)) :: utf8Decode (bs.drop 1)
    else if b < 240 then
      Char.ofNat ((b - 224) * 4096 + (bs.headD 0 - 128) * 64 + ((bs.drop 1).headD 0 - 128)) ::
        utf8Decode (bs.drop 2)
    else
      Char.ofNat ((b - 240) * 262144 + (bs.headD 0 - 128) * 4096 +
        ((bs.drop 1).headD 0 - 128) * 64 + ((bs.drop 2).headD 0 - 128)) :: utf8Decode (bs.drop 3)
termination_by l.length
decreasing_by all_goals simp <;> omega

/-- The per-file encoding step of the meta-question branch (`index.tsx` line
884): `btoa(unescape(encodeURIComponent(content)))`, i.e. base64 over the
UTF-8 bytes of the file text. -/
def jsB64EncodeText (t : List Char) : List Char :=
  b64encode (utf8Encode t)

/-- The decoding a recipient applies to one encoded file blob: base64 back
to bytes, bytes back to text. -/
def jsB64DecodeText (t : List Char) : List Char :=
  utf8Decode (b64decode t)

/-- The titles the chain-mode decomposition loop (`index.tsx` lines 157-169)
reacts to: exactly `"Task"`, the two constraint titles, and any title
starting with `"Refined Answer"`. -/
def isRelevantSection (s : Section) : Bool :=
  s.title == "Task" || s.title == "Constraints" || s.title == "STANDING CONSTRAINTS" ||
    titleStartsWithRA s

/-- The two titles folded into the merged constraints section (`index.tsx`
line 160). -/
def isConstraintTitle (s : Section) : Bool :=
  s.title == "Constraints" || s.title == "STANDING CONSTRAINTS"

/-- The suffix appended to a merged constraints section for each subsequent
constraint-titled section: a blank line, the section's own original title in
bold, a newline, and its content (`index.tsx` line 162). -/
def mergeTail : List Section → String
  | [] => ""
  | s :: rest => "\n\n" ++ "**" ++ s.title ++ "**\n" ++ s.content ++ mergeTail rest

/-- The action of one decomposition step on the `constraints` field alone
(`index.tsx` lines 160-165). -/
def constrStep (o : Option Section) (s : Section) : Option Section :=
  match o with
  | some c => some ⟨c.title, c.content ++ "\n\n" ++ "**" ++ s.title ++ "**\n" ++ s.content⟩
  | none => some ⟨"Constraints", s.content⟩

/-- Minimal session used by concrete test inputs: a given id and creation
time with the default name and empty logs. -/
def mkS (i : String) (t : Nat) : Session :=
  { id := i, name := "New Session", messages := [], chatHistory := [], createdAt := t }

/-- The in-place sort performed by the sessions modal render
(`index.tsx` line 479): `sessions.sort((a,b) => b.createdAt - a.createdAt)`
mutates the state array itself, ordering it descending by `createdAt`.
The delete buttons live inside this modal, so every reachable
`handleDeleteSession` call operates on a store of this shape. -/
def sessionsModalSort (sessions : List Session) : List Session :=
  List.insertionSort (fun a b => b.createdAt ≤ a.createdAt) sessions

theorem b64val_b64chr : ∀ n, n < 64 → b64val (b64chr n) = n := by decide

theorem b64chr_ne_pad : ∀ n, n < 64 → b64chr n ≠ '=' := by decide

theorem b64_roundtrip :
    ∀ bs : List Nat, (∀ b ∈ bs, b < 256) → b64decode (b64encode bs) = bs := by
  intro bs
  induction bs using b64encode.induct with
  | case1 => intro _; rfl
  | case2 b1 =>
    intro h
    have hb1 : b1 < 256 := h b1 (by simp)
    have e1 := b64val_b64chr (b1 / 4) (by omega)
    have e2 := b64val_b64chr (b1 % 4 * 16) (by omega)
    simp only [b64encode, b64decode, e1, e2]
    simp
    omega
  | case3 b1 b2 =>
    intro h
    have hb1 : b1 < 256 := h b1 (by simp)
    have hb2 : b2 < 256 := h b2 (by simp)
    have e1 := b64val_b64chr (b1 / 4) (by omega)
    have e2 := b64val_b64chr (b1 % 4 * 16 + b2 / 16) (by omega)
    have e3 := b64val_b64chr (b2 % 16 * 4) (by omega)
    have n3 := b64chr_ne_pad (b2 % 16 * 4) (by omega)
    simp only [b64encode, b64decode, if_neg n3, e1, e2, e3]
    simp
    omega
  | case4 b1 b2 b3 rest ih =>
    intro h
    have hb1 : b1 < 256 := h b1 (by simp)
    have hb2 : b2 < 256 := h b2 (by simp)
    have hb3 : b3 < 256 := h b3 (by simp)
    have e1 := b64val_b64chr (b1 / 4) (by omega)
    have e2 := b64val_b64chr (b1 % 4 * 16 + b2 / 16) (by omega)
    have e3 := b64val_b64chr (b2 % 16 * 4 + b3 / 64) (by omega)
    have e4 := b64val_b64chr (b3 % 64) (by omega)
    have n3 := b64chr_ne_pad (b2 % 16 * 4 + b3 / 64) (by omega)
    have n4 := b64chr_ne_pad (b3 % 64) (by omega)
    have ih' := ih (fun b hb => h b (by simp [hb]))
    simp only [b64encode, b64decode, if_neg n3, if_neg n4, e1, e2, e3, e4, ih']
    simp
    omega

theorem char_toNat_lt (c : Char) : c.toNat < 1114112 := by
  have h := c.valid
  rcases h with h | ⟨_, h2⟩
  · exact Nat.lt_trans h (by norm_num)
  · exact h2

theorem utf8EncodeChar_lt (n : Nat) (hn : n < 1114112) : ∀ b ∈ utf8EncodeChar n, b < 256 := by
  intro b hb
  unfold utf8EncodeChar at hb
  split_ifs at hb with h1 h2 h3 <;> simp at hb <;> omega

theorem utf8Encode_lt (cs : List Char) : ∀ b ∈ utf8Encode cs, b < 256 := by
  induction cs with
  | nil => simp [utf8Encode]
  | cons c cs ih =>
    intro b hb
    simp only [utf8Encode, List.mem_append] at hb
    rcases hb with hb | hb
    · exact utf8EncodeChar_lt c.toNat (char_toNat_lt c) b hb
    · exact ih b hb

theorem utf8Decode_one (b : Nat) (bs : List Nat) (h1 : b < 128) :
    utf8Decode (b :: bs) = Char.ofNat b :: utf8Decode bs := by
  rw [utf8Decode, if_pos h1]

theorem utf8Decode_two (b b2 : Nat) (bs : List Nat) (h1 : ¬ b < 128) (h2 : b < 224) :
    utf8Decode (b :: b2 :: bs) = Char.ofNat ((b - 192) * 64 + (b2 - 128)) :: utf8Decode bs := by
  rw [utf8Decode, if_neg h1, if_pos h2]
  simp

theorem utf8Decode_three (b b2 b3 : Nat) (bs : List Nat) (h1 : ¬ b < 128) (h2 : ¬ b < 224)
    (h3 : b < 240) :
    utf8Decode (b :: b2 :: b3 :: bs) =
      Char.ofNat ((b - 224) * 4096 + (b2 - 128) * 64 + (b3 - 128)) :: utf8Decode bs := by
  rw [utf8Decode, if_neg h1, if_neg h2, if_pos h3]
  simp

theorem utf8Decode_four (b b2 b3 b4 : Nat) (bs : List Nat) (h1 : ¬ b < 128) (h2 : ¬ b < 224)
    (h3 : ¬ b < 240) :
    utf8Decode (b :: b2 :: b3 :: b4 :: bs) =
      Char.ofNat ((b - 240) * 262144 + (b2 - 128) * 4096 + (b3 - 128) * 64 + (b4 - 128)) ::
        utf8Decode bs := by
  rw [utf8Decode, if_neg h1, if_neg h2, if_neg h3]
  simp

theorem utf8Decode_encodeChar (c : Char) (tail : List Nat) :
    utf8Decode (utf8EncodeChar c.toNat ++ tail) = c :: utf8Decode tail := by
  have hv : c.toNat < 1114112 := char_toNat_lt c
  by_cases h1 : c.toNat < 128
  · rw [utf8EncodeChar, if_pos h1, List.cons_append, List.nil_append,
      utf8Decode_one _ _ h1, Char.ofNat_toNat]
  · by_cases h2 : c.toNat < 2048
    · rw [utf8EncodeChar, if_neg h1, if_pos h2, List.cons_append, List.cons_append,
        List.nil_append, utf8Decode_two _ _ _ (by omega) (by omega)]
      have e : (192 + c.toNat / 64 - 192) * 64 + (128 + c.toNat % 64 - 128) = c.toNat := by
        omega
      rw [e, Char.ofNat_toNat]
    · by_cases h3 : c.toNat < 65536
      · rw [utf8EncodeChar, if_neg h1, if_neg h2, if_pos h3, List.cons_append,
          List.cons_append, List.cons_append, List.nil_append,
          utf8Decode_three _ _ _ _ (by omega) (by omega) (by omega)]
        have e : (224 + c.toNat / 4096 - 224) * 4096 + (128 + c.toNat / 64 % 64 - 128) * 64 +
            (128 + c.toNat % 64 - 128) = c.toNat := by omega
        rw [e, Char.ofNat_toNat]
      · rw [utf8EncodeChar, if_neg h1, if_neg h2, if_neg h3, List.cons_append,
          List.cons_append, List.cons_append, List.cons_append, List.nil_append,
          utf8Decode_four _ _ _ _ _ (by omega) (by omega) (by omega)]
        have e : (240 + c.toNat / 262144 - 240) * 262144 +
            (128 + c.toNat / 4096 % 64 - 128) * 4096 +
            (128 + c.toNat / 64 % 64 - 128) * 64 + (128 + c.toNat % 64 - 128) = c.toNat := by
          omega
        rw [e, Char.ofNat_toNat]

theorem utf8_roundtrip (cs : List Char) : utf8Decode (utf8Encode cs) = cs := by
  induction cs with
  | nil => simp [utf8Encode, utf8Decode]
  | cons c cs ih =>
    simp only [utf8Encode]
    rw [utf8Decode_encodeChar, ih]

/-- The encode/decode pipeline of the self-awareness protocol is lossless:
decoding the Base64 blob of a file's text (after UTF-8 byte conversion)
yields exactly the text that was encoded. -/
theorem jsB64_lossless (t : List Char) : jsB64DecodeText (jsB64EncodeText t) = t := by
  unfold jsB64EncodeText jsB64DecodeText
  rw [b64_roundtrip _ (utf8Encode_lt t), utf8_roundtrip]

theorem listContains_of_isPrefixOf (pat l : List Char) (h : pat.isPrefixOf l = true) :
    listContains pat l = true := by
  cases l with
  | nil =>
    cases pat with
    | nil => rfl
    | cons c cs => simp [List.isPrefixOf] at h
  | cons c rest => simp [listContains, h]

theorem listContains_middle (pat a b : List Char) :
    listContains pat (a ++ pat ++ b) = true := by
  induction a with
  | nil =>
    apply listContains_of_isPrefixOf
    exact List.isPrefixOf_iff_prefix.mpr (List.prefix_append pat b)
  | cons c a ih =>
    rw [List.append_assoc] at ih
    rw [List.append_assoc, List.cons_append]
    simp [listContains, ih]

theorem redact_split (pre secret post : List Char)
    (hOpen : findPat mpOpen (pre ++ mpOpen ++ secret ++ mpClose ++ post) = some pre.length)
    (hClose : findPat mpClose (secret ++ mpClose ++ post) = some secret.length) :
    redactMasterPrompt (pre ++ mpOpen ++ secret ++ mpClose ++ post) =
      pre ++ redactedDecl.data ++ post := by
  have eTail : (pre ++ mpOpen ++ secret ++ mpClose ++ post).drop (pre.length + mpOpen.length) =
      secret ++ mpClose ++ post := by
    have e1 : pre ++ mpOpen ++ secret ++ mpClose ++ post =
        (pre ++ mpOpen) ++ (secret ++ mpClose ++ post) := by simp [List.append_assoc]
    rw [e1, ← List.length_append]
    exact List.drop_left _ _
  have eTake : (pre ++ mpOpen ++ secret ++ mpClose ++ post).take pre.length = pre := by
    have e1 : pre ++ mpOpen ++ secret ++ mpClose ++ post =
        pre ++ (mpOpen ++ secret ++ mpClose ++ post) := by simp [List.append_assoc]
    rw [e1]
    exact List.take_left _ _
  have eDrop : (secret ++ mpClose ++ post).drop (secret.length + mpClose.length) = post := by
    have e1 : secret ++ mpClose ++ post = (secret ++ mpClose) ++ post := by
      simp [List.append_assoc]
    rw [e1, ← List.length_append]
    exact List.drop_left _ _
  simp only [redactMasterPrompt, hOpen, eTail, hClose, eTake, eDrop]

theorem chainStep_irrelevant (acc : ChainData) (s : Section)
    (h : isRelevantSection s = false) : chainStep acc s = acc := by
  simp only [isRelevantSection, Bool.or_eq_false_iff, beq_eq_false_iff_ne] at h
  obtain ⟨⟨⟨h1, h2⟩, h3⟩, h4⟩ := h
  simp [chainStep, h1, h2, h3, h4]

theorem chainStep_constraints (acc : ChainData) (s : Section) :
    (chainStep acc s).constraints =
      if isConstraintTitle s then constrStep acc.constraints s else acc.constraints := by
  by_cases h1 : s.title = "Task"
  · have hc : isConstraintTitle s = false := by
      unfold isConstraintTitle
      rw [h1]
      decide
    simp [chainStep, h1, hc]
  · by_cases h2 : s.title = "Constraints" ∨ s.title = "STANDING CONSTRAINTS"
    · have hc : isConstraintTitle s = true := by
        unfold isConstraintTitle
        rcases h2 with h | h <;> rw [h] <;> decide
      cases ho : acc.constraints with
      | some c => simp [chainStep, h1, h2, hc, constrStep, ho]
      | none => simp [chainStep, h1, h2, hc, constrStep, ho]
    · have hc : isConstraintTitle s = false := by
        rw [not_or] at h2
        obtain ⟨ha, hb⟩ := h2
        simp [isConstraintTitle, beq_eq_false_iff_ne, ha, hb]
      by_cases h3 : titleStartsWithRA s
      · simp [chainStep, h1, h2, h3, hc]
      · simp [chainStep, h1, h2, h3, hc]

theorem foldl_chainStep_constraints (l : List Section) (acc : ChainData) :
    (l.foldl chainStep acc).constraints =
      (l.filter isConstraintTitle).foldl constrStep acc.constraints := by
  induction l generalizing acc with
  | nil => rfl
  | cons s l ih =>
    rw [List.foldl_cons, ih]
    have hcs := chainStep_constraints acc s
    cases hc : isConstraintTitle s with
    | false =>
      rw [hc] at hcs
      simp only [if_neg Bool.false_ne_true] at hcs
      simp [List.filter_cons, hc, hcs]
    | true =>
      rw [hc] at hcs
      simp only [if_pos rfl] at hcs
      simp [List.filter_cons, hc, hcs]

theorem foldl_constrStep_some (rest : List Section) :
    ∀ t c, rest.foldl constrStep (some ⟨t, c⟩) = some ⟨t, c ++ mergeTail rest⟩ := by
  induction rest with
  | nil =>
    intro t c
    simp [mergeTail]
  | cons s rest ih =>
    intro t c
    rw [List.foldl_cons]
    show rest.foldl constrStep
        (some ⟨t, c ++ "\n\n" ++ "**" ++ s.title ++ "**\n" ++ s.content⟩) = _
    rw [ih]
    simp [mergeTail, String.append_assoc]

theorem titleStartsWithRA_ne_task (s : Section) (h : titleStartsWithRA s = true) :
    s.title ≠ "Task" := by
  intro e
  rw [titleStartsWithRA, e] at h
  exact absurd h (by decide)

theorem titleStartsWithRA_not_constraint (s : Section) (h : titleStartsWithRA s = true) :
    ¬(s.title = "Constraints" ∨ s.title = "STANDING CONSTRAINTS") := by
  rintro (e | e) <;> rw [titleStartsWithRA, e] at h <;> exact absurd h (by decide)

theorem chainStep_refined_mono (acc : ChainData) (s : Section) :
    (chainStep acc s).refinedAnswers = acc.refinedAnswers ∨
      (chainStep acc s).refinedAnswers = acc.refinedAnswers ++ [s] := by
  obtain ⟨ot, oc, ra⟩ := acc
  cases oc <;> unfold chainStep <;> split_ifs <;> simp

theorem chainStep_refined_RA (acc : ChainData) (s : Section)
    (h : titleStartsWithRA s = true) :
    (chainStep acc s).refinedAnswers = acc.refinedAnswers ++ [s] := by
  simp [chainStep, titleStartsWithRA_ne_task s h, titleStartsWithRA_not_constraint s h, h]

theorem foldl_refined_ne_nil (l : List Section) :
    ∀ acc : ChainData, acc.refinedAnswers ≠ [] →
      (l.foldl chainStep acc).refinedAnswers ≠ [] := by
  induction l with
  | nil => intro acc h; exact h
  | cons s l ih =>
    intro acc h
    rw [List.foldl_cons]
    apply ih
    rcases chainStep_refined_mono acc s with e | e <;> rw [e]
    · exact h
    · simp

theorem foldl_refined_any (l : List Section) :
    ∀ acc : ChainData, l.any titleStartsWithRA = true →
      (l.foldl chainStep acc).refinedAnswers ≠ [] := by
  induction l with
  | nil => intro acc h; simp at h
  | cons s l ih =>
    intro acc h
    rw [List.foldl_cons]
    cases hs : titleStartsWithRA s with
    | true =>
      apply foldl_refined_ne_nil
      rw [chainStep_refined_RA acc s hs]
      simp
    | false =>
      apply ih
      rw [List.any_cons, hs] at h
      simpa using h

theorem setLastIfAi_lastOf (f : Message → Message) (msgs : List Message) :
    lastOf (setLastIfAi f msgs) =
      (lastOf msgs).map (fun m => if m.author = .ai then f m else m) := by
  induction msgs with
  | nil => rfl
  | cons m msgs ih =>
    cases msgs with
    | nil => rfl
    | cons m' rest =>
      have e2 : setLastIfAi f (m :: m' :: rest) = m :: setLastIfAi f (m' :: rest) := rfl
      cases hh : setLastIfAi f (m' :: rest) with
      | nil =>
        cases hr : rest with
        | nil => rw [hr] at hh; exact absurd hh (by simp [setLastIfAi])
        | cons x xs => rw [hr] at hh; exact absurd hh (by simp [setLastIfAi])
      | cons y ys =>
        have e1 : lastOf (m :: m' :: rest) = lastOf (m' :: rest) := rfl
        have e3 : lastOf (m :: y :: ys) = lastOf (y :: ys) := rfl
        rw [e2, hh, e3, ← hh, ih, e1]

theorem lastOf_append_two (msgs : List Message) (a b : Message) :
    lastOf (msgs ++ [a, b]) = some b := by
  induction msgs with
  | nil => rfl
  | cons m msgs ih =>
    cases he : msgs ++ [a, b] with
    | nil => exact absurd he (by simp)
    | cons x xs =>
      show lastOf (m :: (msgs ++ [a, b])) = some b
      rw [he]
      show lastOf (x :: xs) = some b
      rw [← he]
      exact ih

theorem applyChunk_lastOf (s : Session) (t : String) (cs : List Citation) (m : Message)
    (hm : lastOf s.messages = some m) (ha : m.author = .ai) :
    ∃ m', lastOf (applyChunk s t cs).messages = some m' ∧ m'.author = .ai := by
  refine ⟨?_, ?_, ?_⟩
  · exact { m with content := t, citations := some cs,
                   parsedData := some (parseResponse t) }
  · show lastOf (setLastIfAi _ s.messages) = _
    rw [setLastIfAi_lastOf, hm]
    simp [ha]
  · simpa using ha

theorem streamRun_lastOf (chunks : List Chunk) :
    ∀ (s : Session) (acc : String) (cits : List Citation) (m : Message),
      lastOf s.messages = some m → m.author = .ai →
      ∃ m', lastOf (streamRun s acc cits chunks).1.messages = some m' ∧ m'.author = .ai := by
  induction chunks with
  | nil => intro s acc cits m hm ha; exact ⟨m, hm, ha⟩
  | cons c rest ih =>
    intro s acc cits m hm ha
    rw [streamRun]
    obtain ⟨m', hm', ha'⟩ := applyChunk_lastOf s (acc ++ c.text)
      (match c.grounding with | some l => l | none => cits) m hm ha
    exact ih _ _ _ m' hm' ha'

theorem streamRun_chatHistory (chunks : List Chunk) :
    ∀ (s : Session) (acc : String) (cits : List Citation),
      (streamRun s acc cits chunks).1.chatHistory = s.chatHistory := by
  induction chunks with
  | nil => intro s acc cits; rfl
  | cons c rest ih =>
    intro s acc cits
    rw [streamRun, ih]
    rfl

theorem streamRun_text (chunks : List Chunk) :
    ∀ (s : Session) (acc : String) (cits : List Citation),
      (streamRun s acc cits chunks).2.1 = chunks.foldl (fun a c => a ++ c.text) acc := by
  induction chunks with
  | nil => intro s acc cits; rfl
  | cons c rest ih =>
    intro s acc cits
    rw [streamRun, ih, List.foldl_cons]

theorem failTurn_lastContent (s : Session) (m : Message)
    (hm : lastOf s.messages = some m) (ha : m.author = .ai) :
    (lastOf (failTurn s).messages).map Message.content = some turnErrorText := by
  show (lastOf (setLastIfAi _ s.messages)).map Message.content = _
  rw [setLastIfAi_lastOf, hm]
  simp [ha]

/-- Sortedness of the modal's store order: after the in-place render sort,
the session list is pairwise descending in `createdAt`. -/
theorem sessionsModalSort_sorted (sessions : List Session) :
    List.Pairwise (fun a b : Session => b.createdAt ≤ a.createdAt)
      (sessionsModalSort sessions) := by
  unfold sessionsModalSort
  exact @List.sorted_insertionSort Session (fun a b => b.createdAt ≤ a.createdAt) _
    ⟨fun a b => by omega⟩ ⟨fun a b c hab hbc => by omega⟩ sessions

/-- The modal's in-place sort permutes the store, so pairwise-distinct
creation times survive it. -/
theorem sessionsModalSort_distinct (sessions : List Session)
    (hdistinct : List.Pairwise (fun a b : Session => a.createdAt ≠ b.createdAt) sessions) :
    List.Pairwise (fun a b : Session => a.createdAt ≠ b.createdAt)
      (sessionsModalSort sessions) :=
  hdistinct.perm (List.perm_insertionSort _ sessions).symm (fun h => h.symm)

/-- C1: the delete buttons are rendered only by the sessions modal, whose
render sorts the state array in place descending by `createdAt`
(`index.tsx` line 479) before any delete can be pressed, so every reachable
delete operates on `sessionsModalSort` of the store.  On such a store with
pairwise-distinct creation times, deleting the active session promotes
`remaining[0]`, which is the remaining session with the largest `createdAt`
— the most-recently-created remaining session, strictly newer than every
other survivor. -/
theorem c1_delete_active_promotes_most_recent (sessions : List Session) (activeId : String)
    (r : Session) (rest : List Session)
    (hdistinct : List.Pairwise (fun a b : Session => a.createdAt ≠ b.createdAt) sessions)
    (hfilter : (sessionsModalSort sessions).filter (fun t => t.id != activeId) = r :: rest) :
    handleDeleteSession (sessionsModalSort sessions) activeId activeId =
      some (r :: rest, r.id) ∧
    ∀ t ∈ rest, t.createdAt < r.createdAt := by
  constructor
  · unfold handleDeleteSession
    rw [hfilter]
    simp
  · have hsub : (r :: rest).Sublist (sessionsModalSort sessions) :=
      hfilter ▸ List.filter_sublist _
    have hs1 := List.Pairwise.sublist hsub (sessionsModalSort_sorted sessions)
    have hs2 := List.Pairwise.sublist hsub (sessionsModalSort_distinct sessions hdistinct)
    rw [List.pairwise_cons] at hs1 hs2
    intro t ht
    have h1 := hs1.1 t ht
    have h2 := hs2.1 t ht
    omega

/-- C1 witness: the three-session store created at times 1, 2, 3 with the
session created at 3 active; the modal sort orders it 3, 2, 1, and deleting
the active session promotes the remaining session created at 2 — the
most-recently-created survivor. -/
theorem c1_witness :
    List.Pairwise (fun a b : Session => a.createdAt ≠ b.createdAt)
      [mkS "A" 1, mkS "B" 2, mkS "C" 3] ∧
    (sessionsModalSort [mkS "A" 1, mkS "B" 2, mkS "C" 3]).filter (fun t => t.id != "C") =
      [mkS "B" 2, mkS "A" 1] ∧
    (handleDeleteSession (sessionsModalSort [mkS "A" 1, mkS "B" 2, mkS "C" 3]) "C" "C" =
        some ([mkS "B" 2, mkS "A" 1], (mkS "B" 2).id) ∧
      ∀ t ∈ [mkS "A" 1], t.createdAt < (mkS "B" 2).createdAt) :=
  ⟨by decide, by decide,
    c1_delete_active_promotes_most_recent [mkS "A" 1, mkS "B" 2, mkS "C" 3] "C"
      (mkS "B" 2) [mkS "A" 1] (by decide) (by decide)⟩

/-- C10: deleting a session that is not the active one leaves the active id
unchanged and leaves the remaining sessions exactly as they were: the result
is a sublist of the original store (same relative order, each surviving
session unchanged), every original session other than the deleted one
survives, and every surviving session is an original one distinct from the
deleted id. -/
theorem c10_delete_inactive_frame (sessions : List Session) (activeId sid : String)
    (sessions' : List Session) (active' : String)
    (hne : sid ≠ activeId)
    (hres : handleDeleteSession sessions activeId sid = some (sessions', active')) :
    active' = activeId ∧ sessions'.Sublist sessions ∧
    (∀ t ∈ sessions, t.id ≠ sid → t ∈ sessions') ∧
    (∀ t ∈ sessions', t ∈ sessions ∧ t.id ≠ sid) := by
  unfold handleDeleteSession at hres
  cases hf : sessions.filter (fun s => s.id != sid) with
  | nil =>
    rw [hf] at hres
    exact absurd hres (by simp)
  | cons r rest =>
    rw [hf] at hres
    simp only [if_neg hne, Option.some.injEq, Prod.mk.injEq] at hres
    obtain ⟨h1, h2⟩ := hres
    subst h1
    subst h2
    refine ⟨rfl, ?_, ?_, ?_⟩
    · exact hf ▸ List.filter_sublist sessions
    · intro t ht htne
      rw [← hf]
      exact List.mem_filter.mpr ⟨ht, bne_iff_ne.mpr htne⟩
    · intro t ht
      rw [← hf] at ht
      have := List.mem_filter.mp ht
      exact ⟨this.1, bne_iff_ne.mp this.2⟩

/-- C10 witness: deleting the non-active session `"B"` from a three-session
store with active session `"A"`. -/
theorem c10_witness :
    ("B" : String) ≠ "A" ∧
    handleDeleteSession [mkS "A" 1, mkS "B" 2, mkS "C" 3] "A" "B" =
      some ([mkS "A" 1, mkS "C" 3], "A") ∧
    (("A" : String) = "A" ∧
      List.Sublist [mkS "A" 1, mkS "C" 3] [mkS "A" 1, mkS "B" 2, mkS "C" 3] ∧
      (∀ t ∈ [mkS "A" 1, mkS "B" 2, mkS "C" 3], t.id ≠ "B" → t ∈ [mkS "A" 1, mkS "C" 3]) ∧
      (∀ t ∈ [mkS "A" 1, mkS "C" 3], t ∈ [mkS "A" 1, mkS "B" 2, mkS "C" 3] ∧ t.id ≠ "B")) :=
  ⟨by decide, by decide,
    c10_delete_inactive_frame [mkS "A" 1, mkS "B" 2, mkS "C" 3] "A" "B"
      [mkS "A" 1, mkS "C" 3] "A" (by decide) (by decide)⟩

/-- C3 counterexample: with both storage keys present but the session record
corrupt (`JSON.parse` throws, modelled by a parse function returning `none`),
startup does not fall back to the fresh session: it installs the synthetic
error session and the terminal `error` stage, a user-facing error state.
This falsifies the claim that a corrupt record is discarded in favour of one
fresh session and never surfaced as an error state. -/
theorem c3_counterexample :
    initApp (some "not json") (some "sid") (fun _ => none) (mkS "fresh" 5) 7 =
      ⟨[errorSession 7], "error_session", Stage.error⟩ ∧
    Stage.error ≠ Stage.awaiting_task ∧
    [errorSession 7] ≠ [mkS "fresh" 5] := by
  exact ⟨by decide, by decide, by decide⟩

/-- C3 (amended): a corrupt persisted session record never crashes startup
with an unhandled exception — the `JSON.parse` failure is caught — but it is
not always discarded in favour of a fresh session: whenever both storage
values are truthy (present, non-empty) and the record fails to parse, the
generic initialization catch replaces the store with the synthetic error
session and enters the terminal, user-facing `error` stage.  Only a missing
or empty-string (falsy) record takes the fresh-session fallback, as the
second conjunct shows for the present-but-empty record. -/
theorem c3_corrupt_record_error_state (raw aid : String)
    (parseSessions : String → Option (List Session)) (fresh : Session) (now : Nat)
    (hraw : raw ≠ "") (haid : aid ≠ "") (hcorrupt : parseSessions raw = none) :
    initApp (some raw) (some aid) parseSessions fresh now =
      ⟨[errorSession now], "error_session", Stage.error⟩ ∧
    initApp (some "") (some aid) parseSessions fresh now =
      ⟨[fresh], fresh.id, Stage.awaiting_task⟩ := by
  constructor
  · have hb : (raw != "" && aid != "") = true := by simp [hraw, haid]
    simp only [initApp, hb, hcorrupt, if_true]
  · simp [initApp]

/-- C3 witness: the amended claim evaluated at a concrete non-empty corrupt
record. -/
theorem c3_witness :
    ("corrupt" : String) ≠ "" ∧ ("sid" : String) ≠ "" ∧
    ((fun _ : String => (none : Option (List Session))) "corrupt") = none ∧
    (initApp (some "corrupt") (some "sid") (fun _ => none) (mkS "fresh" 5) 7 =
        ⟨[errorSession 7], "error_session", Stage.error⟩ ∧
      initApp (some "") (some "sid") (fun _ => none) (mkS "fresh" 5) 7 =
        ⟨[mkS "fresh" 5], (mkS "fresh" 5).id, Stage.awaiting_task⟩) :=
  ⟨by decide, by decide, rfl,
    c3_corrupt_record_error_state "corrupt" "sid" (fun _ => none) (mkS "fresh" 5) 7
      (by decide) (by decide) rfl⟩

/-- C2 counterexample: the whitespace-only string `" "` is non-empty, yet
`parseResponse` returns zero sections: both `"Response"`-wrapping fallbacks
are guarded by `text.trim()` being truthy, and the scanning loop finds no
section, so the flat list comes back empty.  This falsifies the claim that
every non-empty input yields at least one section. -/
theorem c2_counterexample :
    (" " : String) ≠ "" ∧ sectionCount (parseResponse " ") = 0 := by
  exact ⟨by decide, by decide⟩

/-- C2 (amended): for every input with at least one non-whitespace character
(`text.trim()` truthy), `parseResponse` returns at least one section; in
particular, when such an input contains no bracket tag the result is exactly
the single synthetic `"Response"` section holding the whole text.  (For
whitespace-only non-empty input the parser returns an empty section list.) -/
theorem c2_parse_nonempty (text : String) (h : jsTrim text.data ≠ []) :
    1 ≤ sectionCount (parseResponse text) ∧
    (hasBracketTag text.data = false →
      parseResponse text = ⟨false, .flat [⟨"Response", text⟩]⟩) := by
  have hne : (jsTrim text.data).isEmpty = false := by
    cases he : jsTrim text.data with
    | nil => exact absurd he h
    | cons a l => rfl
  constructor
  · unfold parseResponse
    split_ifs with h1 h2 h3
    · simp [sectionCount]
    · simp [sectionCount]
    · simp only [sectionCount]
      have hlen : 1 ≤ (decomposeChain (extractSections text)).refinedAnswers.length := by
        have hne2 := foldl_refined_any (extractSections text) ⟨none, none, []⟩ h3
        cases hr : (decomposeChain (extractSections text)).refinedAnswers with
        | nil => exact absurd hr hne2
        | cons x xs => simp
      omega
    · simp only [sectionCount]
      cases hs : extractSections text with
      | nil => exact absurd (by rw [hs]; simp [hne]) h2
      | cons s rest => simp [hs]
  · intro hb
    simp [parseResponse, hb, hne]

/-- C2 witness: the amended claim evaluated at `"hello"`. -/
theorem c2_witness :
    jsTrim ("hello" : String).data ≠ [] ∧
    (1 ≤ sectionCount (parseResponse "hello") ∧
      (hasBracketTag ("hello" : String).data = false →
        parseResponse "hello" = ⟨false, .flat [⟨"Response", "hello"⟩]⟩)) :=
  ⟨by decide, c2_parse_nonempty "hello" (by decide)⟩

/-- C4: when a turn's stream completes without an exception, the next stage
is `awaiting_critique` exactly when the turn is not a meta-question, chain
mode is off, and the full response text contains `"[Draft]"` but not
`"[Final Output]"`; every other successful completion lands in
`awaiting_task` (the stage is always one of the two). -/
theorem c4_stage_after_success (s : Session) (inp : TurnInput) (chunks : List Chunk) :
    ((runTurn s inp (.success chunks)).2 = Stage.awaiting_critique ↔
      (inp.isMetaQuestion = false ∧ inp.isChainMode = false ∧
        jsIncludes (concatTexts chunks) "[Draft]" = true ∧
        jsIncludes (concatTexts chunks) "[Final Output]" = false)) ∧
    ((runTurn s inp (.success chunks)).2 = Stage.awaiting_critique ∨
      (runTurn s inp (.success chunks)).2 = Stage.awaiting_task) := by
  have hstage : (runTurn s inp (.success chunks)).2 =
      nextStageOnSuccess inp.isMetaQuestion inp.isChainMode (concatTexts chunks) := by
    show nextStageOnSuccess inp.isMetaQuestion inp.isChainMode
        (streamRun { s with messages := s.messages ++ [mkUserMessage inp, mkAiPlaceholder inp] }
          "" [] chunks).2.1 = _
    rw [streamRun_text]
    rfl
  rw [hstage]
  unfold nextStageOnSuccess
  cases hm : inp.isMetaQuestion <;> cases hc : inp.isChainMode <;>
    cases hd : jsIncludes (concatTexts chunks) "[Draft]" <;>
    cases hf : jsIncludes (concatTexts chunks) "[Final Output]" <;>
    simp

/-- C5: whenever the model call rejects or the stream throws mid-flight
(after any prefix of the chunks), the turn ends with the stage back at
`awaiting_task` — never stuck in `processing` — and the in-flight AI
message's content overwritten with the generic user-facing error text; the
turn function returns, so no retry is issued. -/
theorem c5_failure_recovery (s : Session) (inp : TurnInput) (pre : List Chunk) :
    (runTurn s inp (.failure pre)).2 = Stage.awaiting_task ∧
    (lastOf (runTurn s inp (.failure pre)).1.messages).map Message.content =
      some turnErrorText := by
  constructor
  · rfl
  · have h0 : lastOf
        ({ s with messages := s.messages ++ [mkUserMessage inp, mkAiPlaceholder inp] }
          : Session).messages = some (mkAiPlaceholder inp) := lastOf_append_two _ _ _
    obtain ⟨m', hm', ha'⟩ := streamRun_lastOf pre _ "" [] _ h0 rfl
    exact failTurn_lastContent _ _ hm' ha'

/-- C8: the model-exchange history is appended only after the stream ends
successfully.  First conjunct: the stream loop never touches `chatHistory`,
whatever prefix of chunks has arrived.  Second: a successful turn appends
exactly the one user/model pair, with the model part holding the full
accumulated text.  Third: a failed turn appends nothing. -/
theorem c8_history_only_on_success (s s0 : Session) (inp : TurnInput)
    (chunks pre : List Chunk) (acc : String) (cits : List Citation) :
    (streamRun s0 acc cits chunks).1.chatHistory = s0.chatHistory ∧
    (runTurn s inp (.success chunks)).1.chatHistory =
      s.chatHistory ++ [⟨"user", inp.userParts⟩, ⟨"model", [.text (concatTexts chunks)]⟩] ∧
    (runTurn s inp (.failure pre)).1.chatHistory = s.chatHistory := by
  refine ⟨streamRun_chatHistory chunks s0 acc cits, ?_, ?_⟩
  · show (finishTurn (streamRun _ "" [] chunks).1 inp.userMessageContent inp.userParts
      (streamRun _ "" [] chunks).2.1).chatHistory = _
    unfold finishTurn
    rw [streamRun_text, streamRun_chatHistory]
    rfl
  · show (failTurn (streamRun _ "" [] pre).1).chatHistory = _
    unfold failTurn
    rw [streamRun_chatHistory]

/-- C6: whenever the parsed sections contain two or more sections titled
`"Constraints"` or `"STANDING CONSTRAINTS"`, the chain-mode decomposition
holds exactly one merged constraints section (the `constraints` field is a
single populated slot): the first such section sets its content, and every
subsequent one is appended via `mergeTail` — a blank line, its own original
title in bold, then its content — so all original contents appear in their
original order. -/
theorem c6_constraint_merge (l : List Section) (s1 s2 : Section) (rest : List Section)
    (hfilter : l.filter isConstraintTitle = s1 :: s2 :: rest) :
    (decomposeChain l).constraints =
      some ⟨"Constraints", s1.content ++ mergeTail (s2 :: rest)⟩ := by
  unfold decomposeChain
  rw [foldl_chainStep_constraints, hfilter, List.foldl_cons]
  show (s2 :: rest).foldl constrStep (some ⟨"Constraints", s1.content⟩) = _
  rw [foldl_constrStep_some]

/-- C6 witness: a chain-mode section list with a `"Constraints"` and a
`"STANDING CONSTRAINTS"` section merges them into one section whose content
holds both contents in order, separated by the bolded original title. -/
theorem c6_witness :
    [⟨"Refined Answer 1/5", "X"⟩, ⟨"Constraints", "A"⟩,
        (⟨"STANDING CONSTRAINTS", "B"⟩ : Section)].filter isConstraintTitle =
      [⟨"Constraints", "A"⟩, ⟨"STANDING CONSTRAINTS", "B"⟩] ∧
    (decomposeChain [⟨"Refined Answer 1/5", "X"⟩, ⟨"Constraints", "A"⟩,
        ⟨"STANDING CONSTRAINTS", "B"⟩]).constraints =
      some ⟨"Constraints", "A" ++ mergeTail [⟨"STANDING CONSTRAINTS", "B"⟩]⟩ ∧
    "A" ++ mergeTail [(⟨"STANDING CONSTRAINTS", "B"⟩ : Section)] =
      "A\n\n**STANDING CONSTRAINTS**\nB" :=
  ⟨by decide,
    c6_constraint_merge _ ⟨"Constraints", "A"⟩ ⟨"STANDING CONSTRAINTS", "B"⟩ [] (by decide),
    by decide⟩

theorem foldl_chainStep_filter (l : List Section) :
    ∀ acc : ChainData,
      l.foldl chainStep acc = (l.filter isRelevantSection).foldl chainStep acc := by
  induction l with
  | nil => intro acc; rfl
  | cons s l ih =>
    intro acc
    rw [List.foldl_cons]
    cases hr : isRelevantSection s with
    | true =>
      rw [ih (chainStep acc s), List.filter_cons, hr]
      simp
    | false =>
      rw [chainStep_irrelevant acc s hr, ih acc, List.filter_cons, hr]
      simp

/-- C9: the chain-mode decomposition is blind to every section whose title
is not exactly `"Task"`, not one of the two constraint titles, and does not
start with `"Refined Answer"` (for example `"Acknowledgement"` or
`"C4 Score"` sections): filtering them out of the input leaves the
decomposition unchanged, so such sections appear nowhere in the returned
task/constraints/refinedAnswers structure. -/
theorem c9_irrelevant_sections_dropped (l : List Section) :
    decomposeChain l = decomposeChain (l.filter isRelevantSection) := by
  unfold decomposeChain
  exact foldl_chainStep_filter l _

/-- C7: for a source text of the redaction-pattern shape — the master-prompt
declaration opener, the secret prompt body, and the backtick-semicolon
terminator, located at their first occurrences — the redactor replaces the
whole declaration with the fixed placeholder before Base64 encoding, so
decoding the encoded blob yields the redacted text: it never contains the
original secret (given that the secret occurs nowhere else in the file),
only the placeholder marker. -/
theorem c7_redaction_secure (pre secret post : List Char)
    (hOpen : findPat mpOpen (pre ++ mpOpen ++ secret ++ mpClose ++ post) = some pre.length)
    (hClose : findPat mpClose (secret ++ mpClose ++ post) = some secret.length)
    (hGone : listContains secret (pre ++ redactedDecl.data ++ post) = false) :
    jsB64DecodeText (jsB64EncodeText
        (redactMasterPrompt (pre ++ mpOpen ++ secret ++ mpClose ++ post))) =
      pre ++ redactedDecl.data ++ post ∧
    listContains secret (jsB64DecodeText (jsB64EncodeText
        (redactMasterPrompt (pre ++ mpOpen ++ secret ++ mpClose ++ post)))) = false ∧
    listContains redactedDecl.data (jsB64DecodeText (jsB64EncodeText
        (redactMasterPrompt (pre ++ mpOpen ++ secret ++ mpClose ++ post)))) = true := by
  have hr := redact_split pre secret post hOpen hClose
  rw [hr, jsB64_lossless]
  exact ⟨rfl, hGone, listContains_middle _ _ _⟩

/-- C7 witness: a small concrete file text around a concrete secret body. -/
theorem c7_witness :
    findPat mpOpen ("p".data ++ mpOpen ++ "SECRET".data ++ mpClose ++ "q".data) =
      some "p".data.length ∧
    findPat mpClose ("SECRET".data ++ mpClose ++ "q".data) = some "SECRET".data.length ∧
    listContains "SECRET".data ("p".data ++ redactedDecl.data ++ "q".data) = false ∧
    (jsB64DecodeText (jsB64EncodeText
        (redactMasterPrompt ("p".data ++ mpOpen ++ "SECRET".data ++ mpClose ++ "q".data))) =
      "p".data ++ redactedDecl.data ++ "q".data ∧
    listContains "SECRET".data (jsB64DecodeText (jsB64EncodeText
        (redactMasterPrompt
          ("p".data ++ mpOpen ++ "SECRET".data ++ mpClose ++ "q".data)))) = false ∧
    listContains redactedDecl.data (jsB64DecodeText (jsB64EncodeText
        (redactMasterPrompt
          ("p".data ++ mpOpen ++ "SECRET".data ++ mpClose ++ "q".data)))) = true) :=
  ⟨by decide, by decide, by decide,
    c7_redaction_secure "p".data "SECRET".data "q".data (by decide) (by decide) (by decide)⟩
